import Mathlib

set_option maxHeartbeats 1000000

attribute [local semireducible] Rat.add Rat.mul Rat.sub Rat.inv Rat.ofScientific

/-!
Shallow embedding of the line-item reconstruction code of
`src/extract_app.py` (function `extract_pdf_invoice` and the regular
expression `ITEM_LINE_RE`), together with a formalisation of the
specification's row grammar, and proofs of the spec claims.

Modelling conventions:
* Python strings are Lean `String`/`List Char`; the ASCII fragments of the
  Python character classes `\d`, `\s`, `\S` and of `str.upper` are modelled
  (all characters the claims are about are ASCII).
* Python `float` values are modelled as exact rationals `ℚ`; the numeric
  strings that reach `float` here are plain decimal strings, for which the
  rational value is the idealised semantics.  `round(x, 2)` / pandas
  `.round(2)` are modelled as round-half-to-even at two decimals.
* The fallible parts (the `float`/`int` conversions, and the final pandas
  column selection `df[[...]]`, which raises `KeyError` on the empty,
  column-less frame produced by `pd.DataFrame([])`) are modelled with
  `Option` / `Except String`.
-/

/-- ASCII fragment of Python's `\s` class: space, tab, newline, carriage
return, vertical tab, form feed. -/
def isWsChar (c : Char) : Bool :=
  c = ' ' || c = '\t' || c = '\n' || c = '\r' || c = '\x0b' || c = '\x0c'

/-- Character class `[\d,]` of the two price fields of `ITEM_LINE_RE`. -/
def isBodyChar (c : Char) : Bool :=
  c.isDigit || c = ','

/-- Greedy run of characters satisfying `p`, with the remainder: the
maximal-munch step a backtracking engine is forced into when the class
`p` is disjoint from whatever the pattern requires next (which is the
case at every junction of `ITEM_LINE_RE`). -/
def spanP (p : Char → Bool) : List Char → List Char × List Char
  | [] => ([], [])
  | c :: cs =>
    if p c then (c :: (spanP p cs).1, (spanP p cs).2)
    else ([], c :: cs)

theorem spanP_sound (p : Char → Bool) :
    ∀ cs as bs, spanP p cs = (as, bs) →
      cs = as ++ bs ∧ (∀ a ∈ as, p a = true) ∧
        (∀ y, bs.head? = some y → p y = false)
  | [], as, bs, h => by
    simp only [spanP, Prod.mk.injEq] at h
    obtain ⟨h1, h2⟩ := h
    subst h1; subst h2
    exact ⟨rfl, by simp, by simp⟩
  | c :: cs, as, bs, h => by
    cases hc : p c with
    | true =>
      rw [spanP, if_pos hc] at h
      injection h with h1 h2
      obtain ⟨e1, e2, e3⟩ := spanP_sound p cs (spanP p cs).1 (spanP p cs).2 rfl
      subst h1; subst h2
      refine ⟨by rw [List.cons_append, ← e1], ?_, e3⟩
      intro a ha
      rcases List.mem_cons.mp ha with rfl | ha
      · exact hc
      · exact e2 a ha
    | false =>
      rw [spanP, if_neg (by simp [hc])] at h
      injection h with h1 h2
      subst h1; subst h2
      refine ⟨by simp, by simp, ?_⟩
      intro y hy
      simp only [List.head?_cons, Option.some.injEq] at hy
      subst hy
      exact hc

theorem spanP_append (p : Char → Bool) :
    ∀ as bs, (∀ a ∈ as, p a = true) →
      (∀ y, bs.head? = some y → p y = false) →
      spanP p (as ++ bs) = (as, bs)
  | [], bs, _, hbs => by
    cases bs with
    | nil => simp [spanP]
    | cons y bs => simp [spanP, hbs y rfl]
  | a :: as, bs, has, hbs => by
    have ha : p a = true := has a (List.mem_cons_self a as)
    simp [spanP, ha, spanP_append p as bs (fun x hx => has x (List.mem_cons_of_mem a hx)) hbs]

/-- One-or-more repetition of a character class (`\d+`, `\s+`, `\S+`,
`[\d,]+`): the greedy run, failing when it is empty. -/
def matchClass1 (p : Char → Bool) (cs : List Char) : Option (List Char × List Char) :=
  if (spanP p cs).1 = [] then none else some (spanP p cs)

theorem matchClass1_sound {p : Char → Bool} {cs as bs : List Char}
    (h : matchClass1 p cs = some (as, bs)) :
    cs = as ++ bs ∧ as ≠ [] ∧ (∀ a ∈ as, p a = true) ∧
      (∀ y, bs.head? = some y → p y = false) := by
  unfold matchClass1 at h
  split at h
  · exact absurd h (by simp)
  · rename_i hne
    have hp : spanP p cs = (as, bs) := Option.some.inj h
    obtain ⟨e1, e2, e3⟩ := spanP_sound p cs as bs hp
    refine ⟨e1, ?_, e2, e3⟩
    intro has
    apply hne
    rw [hp]
    exact has

theorem matchClass1_append {p : Char → Bool} {as bs : List Char}
    (hne : as ≠ []) (has : ∀ a ∈ as, p a = true)
    (hbs : ∀ y, bs.head? = some y → p y = false) :
    matchClass1 p (as ++ bs) = some (as, bs) := by
  unfold matchClass1
  rw [spanP_append p as bs has hbs]
  simp [hne]

/-- Group `(?P<qty>\d+(?:\.\d+)?)` of `ITEM_LINE_RE`: greedy digits, then
the optional fractional part, taken exactly when a '.' immediately
followed by at least one digit is present (the engine's greedy choice;
when the optional group fails or is not followed by what the pattern
needs next, backtracking cannot help because the classes are disjoint). -/
def matchQtyGroup (cs : List Char) : Option (List Char × List Char) :=
  match matchClass1 Char.isDigit cs with
  | none => none
  | some (ds, rest) =>
    match rest with
    | [] => some (ds, [])
    | c :: rest2 =>
      if c = '.' ∧ (spanP Char.isDigit rest2).1 ≠ [] then
        some (ds ++ c :: (spanP Char.isDigit rest2).1, (spanP Char.isDigit rest2).2)
      else some (ds, c :: rest2)

/-- Group `\$(?P<price>[\d,]+\.\d{2})` of `ITEM_LINE_RE`: a literal '$',
a nonempty run over `[\d,]`, a literal '.', exactly two digits.  The
returned group is the part after the '$'. -/
def matchPriceGroup (cs : List Char) : Option (List Char × List Char) :=
  match cs with
  | [] => none
  | c :: rest =>
    if c = '$' then
      match matchClass1 isBodyChar rest with
      | none => none
      | some (body, rest2) =>
        match rest2 with
        | p :: d1 :: d2 :: rest3 =>
          if p = '.' ∧ d1.isDigit ∧ d2.isDigit then
            some (body ++ p :: d1 :: d2 :: [], rest3)
          else none
        | _ => none
    else none

/-- The five named groups of a successful `ITEM_LINE_RE.match`. -/
structure ItemMatch where
  line_no : List Char
  qty : List Char
  part_id : List Char
  unit_price : List Char
  ext_price : List Char
deriving DecidableEq, Repr

/-- Model of `ITEM_LINE_RE.match(ln)` (source lines 21-27 and 43).  At
every junction of the pattern the adjacent character classes are
disjoint, so the backtracking engine is equivalent to this deterministic
greedy scan.  Python's `$` accepts the end of the string or a single
trailing newline before the end. -/
def itemLineMatch (s : String) : Option ItemMatch :=
  match matchClass1 Char.isDigit s.data with
  | none => none
  | some (lno, r1) =>
    match matchClass1 isWsChar r1 with
    | none => none
    | some (_, r2) =>
      match matchQtyGroup r2 with
      | none => none
      | some (q, r3) =>
        match matchClass1 isWsChar r3 with
        | none => none
        | some (_, r4) =>
          match matchClass1 (fun c => !isWsChar c) r4 with
          | none => none
          | some (pid, r5) =>
            match matchClass1 isWsChar r5 with
            | none => none
            | some (_, r6) =>
              match matchPriceGroup r6 with
              | none => none
              | some (u, r7) =>
                match matchClass1 isWsChar r7 with
                | none => none
                | some (_, r8) =>
                  match matchPriceGroup r8 with
                  | none => none
                  | some (e, r9) =>
                    if r9 = [] || r9 = ['\n'] then
                      some ⟨lno, q, pid, u, e⟩
                    else none

example : itemLineMatch "1 2 PN-100 $10.00 $20.00" =
    some ⟨"1".data, "2".data, "PN-100".data, "10.00".data, "20.00".data⟩ := by decide

example : itemLineMatch "random header text" = none := by decide

example : itemLineMatch "1 1 P $,.50 $,.50" =
    some ⟨"1".data, "1".data, "P".data, ",.50".data, ",.50".data⟩ := by decide

example : itemLineMatch "1 2 PN-100 $10.00 $20.00 x" = none := by decide

example : itemLineMatch "1 2.5 PN-100 $1,000.00 $2,500.00" =
    some ⟨"1".data, "2.5".data, "PN-100".data, "1,000.00".data, "2,500.00".data⟩ := by decide

/-- Value of a digit string, as Python `int` computes it on `\d+`. -/
def digitsToNat (ds : List Char) : Nat :=
  ds.foldl (fun a c => 10 * a + (c.toNat - '0'.toNat)) 0

/-- Model of Python `int(s)` on the fragment that can reach it here: a
nonempty string of decimal digits succeeds, anything else is a
`ValueError`.  (Python `int` accepts more shapes — signs, underscores,
surrounding whitespace — none of which the regex groups can produce.) -/
def intOfStr (cs : List Char) : Option Int :=
  if cs ≠ [] ∧ cs.all Char.isDigit then some (digitsToNat cs : Int) else none

/-- Model of Python `float(s)` on the fragment that can reach it here:
an optional integer digit run, an optional '.', an optional fractional
digit run, with at least one digit overall; the value is the exact
rational.  (Python `float` also accepts signs, exponents and `inf`/`nan`,
none of which the comma-stripped regex groups can produce.) -/
def floatOfStr (cs : List Char) : Option Rat :=
  match spanP (fun c => c ≠ '.') cs with
  | (ip, rest) =>
    if ip.all Char.isDigit then
      match rest with
      | [] => if ip = [] then none else some ((digitsToNat ip : Rat))
      | '.' :: fp =>
        if fp.all Char.isDigit && !(ip = [] && fp = []) then
          some ((digitsToNat ip : Rat) + (digitsToNat fp : Rat) / (10 : Rat) ^ fp.length)
        else none
      | _ => none
    else none

example : floatOfStr ".50".data = some (1/2 : Rat) := by decide
example : floatOfStr "10.00".data = some (10 : Rat) := by decide
example : floatOfStr "2.5".data = some (5/2 : Rat) := by decide
example : floatOfStr "".data = none := by decide
example : floatOfStr ".".data = none := by decide
example : floatOfStr "1000.00".data = some (1000 : Rat) := by decide

/-- Round to the nearest integer, ties to even — the rounding used by
Python's `round` and by pandas/numpy `.round`. -/
def roundHalfEven (q : Rat) : Int :=
  if q - (q.floor : Rat) < 1 / 2 then q.floor
  else if 1 / 2 < q - (q.floor : Rat) then q.floor + 1
  else if q.floor % 2 = 0 then q.floor else q.floor + 1

/-- Model of `.round(2)`: round half-to-even at two decimal places. -/
def round2 (q : Rat) : Rat :=
  (roundHalfEven (q * 100) : Rat) / 100

example : round2 (15/2 : Rat) = 15/2 := by decide
example : round2 (1/3 : Rat) = 33/100 := by decide

/-- One extracted row: the dict built at source lines 45-52, with the
spec's field names (`Line #`, `Quantity Ordered`, `Part ID`,
`Description`, `Net Unit Price`, `Net Extended Price` are not legal Lean
identifiers). -/
structure ItemRecord where
  lineNumber : Int
  quantityOrdered : Rat
  partId : String
  description : String
  netUnitPrice : Rat
  netExtendedPrice : Rat
deriving DecidableEq, Repr

/-- The record a matched line yields (source lines 45-52): `int` on the
line-number group, `float` on the comma-stripped quantity and price
groups, empty description.  `none` models the `ValueError` the Python
conversions would raise. -/
def mkRecord (m : ItemMatch) : Option ItemRecord :=
  match intOfStr m.line_no with
  | none => none
  | some lno =>
    match floatOfStr (m.qty.filter (fun c => c ≠ ',')) with
    | none => none
    | some q =>
      match floatOfStr (m.unit_price.filter (fun c => c ≠ ',')) with
      | none => none
      | some u =>
        match floatOfStr (m.ext_price.filter (fun c => c ≠ ',')) with
        | none => none
        | some e =>
          some ⟨lno, q, String.mk m.part_id, "", u, e⟩

/-- Model of `ln.upper().startswith("LEAD TIME")` (source line 56),
on the ASCII fragment of `str.upper`. -/
def startsWithLeadTime (ln : String) : Bool :=
  "LEAD TIME".data.isPrefixOf (ln.data.map Char.toUpper)

example : startsWithLeadTime "Lead Time 5 DAYS" = true := by decide
example : startsWithLeadTime "lead time: long" = true := by decide
example : startsWithLeadTime "Widget, blue" = false := by decide

/-- Source line 57: append a continuation line to the current record's
description, space-separated when the description is already nonempty. -/
def appendDesc (c : ItemRecord) (ln : String) : ItemRecord :=
  { c with description := if c.description = "" then ln else c.description ++ " " ++ ln }

/-- Effect of one non-matching line on the current record (source lines
56-57): dropped when it starts with "LEAD TIME" (case-insensitively),
appended to the description otherwise. -/
def contStep (c : ItemRecord) (ln : String) : ItemRecord :=
  if startsWithLeadTime ln then c else appendDesc c ln

/-- Effect of a run of non-matching lines on the current record. -/
def descAppendAll (c : ItemRecord) (lns : List String) : ItemRecord :=
  lns.foldl contStep c

instance {ε α : Type} [DecidableEq ε] [DecidableEq α] : DecidableEq (Except ε α) := fun
  | .error a, .error b =>
    if h : a = b then .isTrue (by rw [h])
    else .isFalse (fun hh => h (Except.error.inj hh))
  | .error _, .ok _ => .isFalse (fun hh => Except.noConfusion hh)
  | .ok _, .error _ => .isFalse (fun hh => Except.noConfusion hh)
  | .ok a, .ok b =>
    if h : a = b then .isTrue (by rw [h])
    else .isFalse (fun hh => h (Except.ok.inj hh))

/-- Message of the `ValueError` a failed numeric conversion raises. -/
def valueErrorMsg : String := "ValueError: could not convert string to float"

/-- Message of the `KeyError` raised by the final column selection when
the DataFrame is empty and therefore has none of the six columns. -/
def keyErrorMsg : String := "KeyError: requested columns not in the DataFrame"

/-- The scan loop of `extract_pdf_invoice` (source lines 42-57).
`finished` holds the records already finalised, `cur` the current
record; the Python list `records` is `finished ++ cur.toList` since the
current record is appended on creation and then mutated in place. -/
def extractLoop : List String → List ItemRecord → Option ItemRecord → Except String (List ItemRecord)
  | [], finished, cur => .ok (finished ++ cur.toList)
  | ln :: rest, finished, cur =>
    match itemLineMatch ln with
    | some m =>
      match mkRecord m with
      | some r => extractLoop rest (finished ++ cur.toList) (some r)
      | none => .error valueErrorMsg
    | none =>
      match cur with
      | none => extractLoop rest finished none
      | some c =>
        if startsWithLeadTime ln then extractLoop rest finished (some c)
        else extractLoop rest finished (some (appendDesc c ln))

/-- Source lines 60-63: the recomputation of `Net Extended Price` as
`Quantity Ordered * Net Unit Price` rounded to two decimals. -/
def recompute (r : ItemRecord) : ItemRecord :=
  { r with netExtendedPrice := round2 (r.quantityOrdered * r.netUnitPrice) }

/-- Model of `extract_pdf_invoice` (source lines 42-72) as a function of
the flattened, trimmed, non-blank line sequence (the pdfplumber loop at
lines 34-40 that produces it is the out-of-scope text-extraction
collaborator).  When no row matched, `records` is empty, so
`pd.DataFrame(records)` has no columns and the column selection
`df[[...]]` at lines 65-72 raises a `KeyError`; otherwise the extended
price of every record is overwritten with its recomputed value. -/
def extract_pdf_invoice (lines : List String) : Except String (List ItemRecord) :=
  match extractLoop lines [] none with
  | .error e => .error e
  | .ok recs =>
    if recs = [] then .error keyErrorMsg
    else .ok (recs.map recompute)

example : extract_pdf_invoice ["1 2 PN-100 $10.00 $20.00"] =
    .ok [⟨1, 2, "PN-100", "", 10, 20⟩] := by decide

example : extract_pdf_invoice
    ["1 2 PN-100 $10.00 $20.00", "Widget, blue", "LEAD TIME 5 DAYS", "2 1 PN-200 $5.00 $5.00"] =
    .ok [⟨1, 2, "PN-100", "Widget, blue", 10, 20⟩, ⟨2, 1, "PN-200", "", 5, 5⟩] := by decide

example : extract_pdf_invoice ["random header text", "1 3 PN-300 $2.50 $999.99"] =
    .ok [⟨1, 3, "PN-300", "", 5/2, 15/2⟩] := by decide

example : extract_pdf_invoice [] = .error keyErrorMsg := by decide

example : extract_pdf_invoice ["1 1 PN-1 $1.00 $1.00", "Line one", "Line two"] =
    .ok [⟨1, 1, "PN-1", "Line one Line two", 1, 1⟩] := by decide

/-- Spec grammar, field `<lineNumber: digits>`: a nonempty digit string. -/
def digitStr (cs : List Char) : Prop :=
  cs ≠ [] ∧ ∀ c ∈ cs, c.isDigit = true

/-- Spec grammar, `<whitespace>+`. -/
def wsStr (cs : List Char) : Prop :=
  cs ≠ [] ∧ ∀ c ∈ cs, isWsChar c = true

/-- Spec grammar, field `<quantity: digits, optional single '.' + digits>`. -/
def qtyStr (cs : List Char) : Prop :=
  digitStr cs ∨ ∃ d f, digitStr d ∧ digitStr f ∧ cs = d ++ '.' :: f

/-- Spec grammar, field `<partId: one or more non-whitespace characters>`. -/
def tokenStr (cs : List Char) : Prop :=
  cs ≠ [] ∧ ∀ c ∈ cs, isWsChar c = false

/-- Spec grammar, the part of a price field after the '$': digits with
optional thousands separators (a nonempty string over digits and commas),
'.', exactly two digits. -/
def priceStr (cs : List Char) : Prop :=
  ∃ body d1 d2, body ≠ [] ∧ (∀ c ∈ body, isBodyChar c = true) ∧
    d1.isDigit = true ∧ d2.isDigit = true ∧ cs = body ++ '.' :: d1 :: d2 :: []

/-- Modelled from the spec's row-detection rule: the line, in its
entirety (anchored at start and end, no trailing characters), is the
five mandatory fields in order, separated by runs of whitespace, with
'$' before each of the two price fields. -/
def specItemRow (s : String) : Prop :=
  ∃ a w1 q w2 p w3 u w4 e,
    digitStr a ∧ wsStr w1 ∧ qtyStr q ∧ wsStr w2 ∧ tokenStr p ∧ wsStr w3 ∧
    priceStr u ∧ wsStr w4 ∧ priceStr e ∧
    s.data = a ++ w1 ++ q ++ w2 ++ p ++ w3 ++ ['$'] ++ u ++ w4 ++ ['$'] ++ e

theorem ws_not_digit {c : Char} (h : isWsChar c = true) : c.isDigit = false := by
  simp only [isWsChar, Bool.or_eq_true, decide_eq_true_eq] at h
  rcases h with ((((h | h) | h) | h) | h) | h <;> subst h <;> decide

theorem digit_not_ws {c : Char} (h : c.isDigit = true) : isWsChar c = false := by
  cases hw : isWsChar c
  · rfl
  · rw [ws_not_digit hw] at h
    exact absurd h (by simp)

theorem ws_ne_dot {c : Char} (h : isWsChar c = true) : c ≠ '.' := by
  intro he
  subst he
  exact absurd h (by decide)

theorem digit_ne_dot {c : Char} (h : c.isDigit = true) : c ≠ '.' := by
  intro he
  subst he
  exact absurd h (by decide)

theorem digit_ne_comma {c : Char} (h : c.isDigit = true) : c ≠ ',' := by
  intro he
  subst he
  exact absurd h (by decide)

theorem bodyChar_ne_dot {c : Char} (h : isBodyChar c = true) : c ≠ '.' := by
  intro he
  subst he
  exact absurd h (by decide)

theorem bodyChar_not_comma_digit {c : Char} (h1 : isBodyChar c = true) (h2 : c ≠ ',') :
    c.isDigit = true := by
  simp only [isBodyChar, Bool.or_eq_true, decide_eq_true_eq] at h1
  rcases h1 with h1 | h1
  · exact h1
  · exact absurd h1 h2

theorem head_append_mem {xs ys : List Char} (hne : xs ≠ []) :
    ∀ y, (xs ++ ys).head? = some y → y ∈ xs := by
  cases xs with
  | nil => exact absurd rfl hne
  | cons c cs =>
    intro y hy
    rw [List.cons_append, List.head?_cons] at hy
    rw [← Option.some.inj hy]
    exact List.mem_cons_self c cs

theorem head_mem {xs : List Char} : ∀ y, xs.head? = some y → y ∈ xs := by
  cases xs with
  | nil => intro y hy; exact absurd hy (by simp)
  | cons c cs =>
    intro y hy
    rw [List.head?_cons] at hy
    rw [← Option.some.inj hy]
    exact List.mem_cons_self c cs

theorem matchQtyGroup_sound {cs q rest : List Char}
    (h : matchQtyGroup cs = some (q, rest)) :
    cs = q ++ rest ∧ qtyStr q := by
  unfold matchQtyGroup at h
  cases heq : matchClass1 Char.isDigit cs with
  | none => rw [heq] at h; exact absurd h (by simp)
  | some pr =>
    obtain ⟨ds, rest0⟩ := pr
    rw [heq] at h
    obtain ⟨e1, ene, edig, _⟩ := matchClass1_sound heq
    cases rest0 with
    | nil =>
      simp only [Option.some.injEq, Prod.mk.injEq] at h
      obtain ⟨h1, h2⟩ := h
      subst h1; subst h2
      exact ⟨e1, Or.inl ⟨ene, edig⟩⟩
    | cons c rest2 =>
      simp only [] at h
      by_cases hcond : c = '.' ∧ (spanP Char.isDigit rest2).1 ≠ []
      · rw [if_pos hcond] at h
        simp only [Option.some.injEq, Prod.mk.injEq] at h
        obtain ⟨h1, h2⟩ := h
        subst h1; subst h2
        obtain ⟨f1, f2, _⟩ := spanP_sound Char.isDigit rest2 _ _ rfl
        obtain ⟨hc, hfne⟩ := hcond
        subst hc
        constructor
        · rw [e1]
          conv_lhs => rw [f1]
          simp [List.append_assoc]
        · exact Or.inr ⟨ds, (spanP Char.isDigit rest2).1, ⟨ene, edig⟩, ⟨hfne, f2⟩, rfl⟩
      · rw [if_neg hcond] at h
        simp only [Option.some.injEq, Prod.mk.injEq] at h
        obtain ⟨h1, h2⟩ := h
        subst h1; subst h2
        exact ⟨e1, Or.inl ⟨ene, edig⟩⟩

theorem matchQtyGroup_append {q rest : List Char} (hq : qtyStr q)
    (hrest : ∀ y, rest.head? = some y → y.isDigit = false ∧ y ≠ '.') :
    matchQtyGroup (q ++ rest) = some (q, rest) := by
  rcases hq with ⟨hne, hdig⟩ | ⟨d, f, ⟨hdne, hddig⟩, ⟨hfne, hfdig⟩, hqe⟩
  · simp only [matchQtyGroup]
    rw [matchClass1_append hne hdig (fun y hy => (hrest y hy).1)]
    cases rest with
    | nil => rfl
    | cons y r =>
      have hy := hrest y rfl
      simp only []
      rw [if_neg]
      intro hcond
      exact hy.2 hcond.1
  · subst hqe
    simp only [matchQtyGroup]
    have hassoc : (d ++ '.' :: f) ++ rest = d ++ '.' :: (f ++ rest) := by
      simp [List.append_assoc]
    rw [hassoc]
    have hd : ∀ y, ('.' :: (f ++ rest)).head? = some y → y.isDigit = false := by
      intro y hy
      rw [List.head?_cons] at hy
      rw [← Option.some.inj hy]
      decide
    rw [matchClass1_append hdne hddig hd]
    have hspan : spanP Char.isDigit (f ++ rest) = (f, rest) :=
      spanP_append Char.isDigit f rest hfdig (fun y hy => (hrest y hy).1)
    simp [hspan, hfne]

theorem matchPriceGroup_sound {cs u rest : List Char}
    (h : matchPriceGroup cs = some (u, rest)) :
    cs = '$' :: (u ++ rest) ∧ priceStr u := by
  unfold matchPriceGroup at h
  cases cs with
  | nil => exact absurd h (by simp)
  | cons c rest0 =>
    simp only [] at h
    by_cases hc : c = '$'
    · rw [if_pos hc] at h
      subst hc
      cases heq : matchClass1 isBodyChar rest0 with
      | none => rw [heq] at h; exact absurd h (by simp)
      | some pr =>
        obtain ⟨body, rest2⟩ := pr
        rw [heq] at h
        obtain ⟨e1, ene, ebody, _⟩ := matchClass1_sound heq
        rcases rest2 with _ | ⟨p, _ | ⟨d1, _ | ⟨d2, rest3⟩⟩⟩
        · exact absurd h (by simp)
        · exact absurd h (by simp)
        · exact absurd h (by simp)
        · simp only [] at h
          by_cases hcond : p = '.' ∧ d1.isDigit = true ∧ d2.isDigit = true
          · rw [if_pos hcond] at h
            simp only [Option.some.injEq, Prod.mk.injEq] at h
            obtain ⟨h1, h2⟩ := h
            subst h1; subst h2
            obtain ⟨hp, hdd1, hdd2⟩ := hcond
            subst hp
            constructor
            · rw [e1]
              simp [List.append_assoc]
            · exact ⟨body, d1, d2, ene, ebody, hdd1, hdd2, rfl⟩
          · rw [if_neg hcond] at h
            exact absurd h (by simp)
    · rw [if_neg hc] at h
      exact absurd h (by simp)

theorem matchPriceGroup_append {u rest : List Char} (hu : priceStr u) :
    matchPriceGroup ('$' :: (u ++ rest)) = some (u, rest) := by
  obtain ⟨body, d1, d2, hbne, hbody, hd1, hd2, hue⟩ := hu
  subst hue
  have hassoc : ('$' : Char) :: ((body ++ '.' :: d1 :: d2 :: []) ++ rest) =
      '$' :: (body ++ '.' :: d1 :: d2 :: rest) := by
    simp [List.append_assoc]
  rw [hassoc]
  simp only [matchPriceGroup, if_true]
  have hb : ∀ y, ('.' :: d1 :: d2 :: rest).head? = some y → isBodyChar y = false := by
    intro y hy
    rw [List.head?_cons] at hy
    rw [← Option.some.inj hy]
    decide
  rw [matchClass1_append hbne hbody hb]
  simp [hd1, hd2]

theorem head_append_all {P : Char → Prop} {xs ys : List Char} (hne : xs ≠ [])
    (hall : ∀ c ∈ xs, P c) : ∀ y, (xs ++ ys).head? = some y → P y :=
  fun y hy => hall y (head_append_mem hne y hy)

theorem head_cons_prop {P : Char → Prop} {c : Char} {xs : List Char} (hc : P c) :
    ∀ y, (c :: xs).head? = some y → P y := by
  intro y hy
  rw [List.head?_cons] at hy
  rw [← Option.some.inj hy]
  exact hc

theorem qtyStr_ne_nil {q : List Char} (hq : qtyStr q) : q ≠ [] := by
  rcases hq with ⟨hne, _⟩ | ⟨d, f, ⟨hdne, _⟩, _, hqe⟩
  · exact hne
  · subst hqe
    simp [hdne]

theorem qtyStr_head_append {q ys : List Char} (hq : qtyStr q) :
    ∀ y, (q ++ ys).head? = some y → isWsChar y = false := by
  rcases hq with ⟨hne, hdig⟩ | ⟨d, f, ⟨hdne, hddig⟩, _, hqe⟩
  · intro y hy
    exact digit_not_ws (hdig y (head_append_mem hne y hy))
  · subst hqe
    intro y hy
    rw [List.append_assoc] at hy
    exact digit_not_ws (hddig y (head_append_mem hdne y hy))

theorem itemLineMatch_sound {s : String} {m : ItemMatch} (h : itemLineMatch s = some m) :
    ∃ w1 w2 w3 w4 r9,
      digitStr m.line_no ∧ wsStr w1 ∧ qtyStr m.qty ∧ wsStr w2 ∧ tokenStr m.part_id ∧
      wsStr w3 ∧ priceStr m.unit_price ∧ wsStr w4 ∧ priceStr m.ext_price ∧
      (r9 = [] ∨ r9 = ['\n']) ∧
      s.data = m.line_no ++ w1 ++ m.qty ++ w2 ++ m.part_id ++ w3 ++
        ['$'] ++ m.unit_price ++ w4 ++ ['$'] ++ m.ext_price ++ r9 := by
  unfold itemLineMatch at h
  cases h1 : matchClass1 Char.isDigit s.data with
  | none => rw [h1] at h; exact absurd h (by simp)
  | some pr1 =>
  obtain ⟨lno, r1⟩ := pr1
  rw [h1] at h
  simp only [] at h
  cases h2 : matchClass1 isWsChar r1 with
  | none => rw [h2] at h; exact absurd h (by simp)
  | some pr2 =>
  obtain ⟨w1, r2⟩ := pr2
  rw [h2] at h
  simp only [] at h
  cases h3 : matchQtyGroup r2 with
  | none => rw [h3] at h; exact absurd h (by simp)
  | some pr3 =>
  obtain ⟨q, r3⟩ := pr3
  rw [h3] at h
  simp only [] at h
  cases h4 : matchClass1 isWsChar r3 with
  | none => rw [h4] at h; exact absurd h (by simp)
  | some pr4 =>
  obtain ⟨w2, r4⟩ := pr4
  rw [h4] at h
  simp only [] at h
  cases h5 : matchClass1 (fun c => !isWsChar c) r4 with
  | none => rw [h5] at h; exact absurd h (by simp)
  | some pr5 =>
  obtain ⟨pid, r5⟩ := pr5
  rw [h5] at h
  simp only [] at h
  cases h6 : matchClass1 isWsChar r5 with
  | none => rw [h6] at h; exact absurd h (by simp)
  | some pr6 =>
  obtain ⟨w3, r6⟩ := pr6
  rw [h6] at h
  simp only [] at h
  cases h7 : matchPriceGroup r6 with
  | none => rw [h7] at h; exact absurd h (by simp)
  | some pr7 =>
  obtain ⟨u, r7⟩ := pr7
  rw [h7] at h
  simp only [] at h
  cases h8 : matchClass1 isWsChar r7 with
  | none => rw [h8] at h; exact absurd h (by simp)
  | some pr8 =>
  obtain ⟨w4, r8⟩ := pr8
  rw [h8] at h
  simp only [] at h
  cases h9 : matchPriceGroup r8 with
  | none => rw [h9] at h; exact absurd h (by simp)
  | some pr9 =>
  obtain ⟨e, r9⟩ := pr9
  rw [h9] at h
  simp only [] at h
  by_cases hend : (r9 = [] || r9 = ['\n']) = true
  · rw [if_pos hend] at h
    obtain rfl := Option.some.inj h
    obtain ⟨e1, _, ed1, _⟩ := matchClass1_sound h1
    obtain ⟨e2, en2, ew2, _⟩ := matchClass1_sound h2
    obtain ⟨e3, eq3⟩ := matchQtyGroup_sound h3
    obtain ⟨e4, en4, ew4, _⟩ := matchClass1_sound h4
    obtain ⟨e5, en5, et5, _⟩ := matchClass1_sound h5
    obtain ⟨e6, en6, ew6, _⟩ := matchClass1_sound h6
    obtain ⟨e7, ep7⟩ := matchPriceGroup_sound h7
    obtain ⟨e8, en8, ew8, _⟩ := matchClass1_sound h8
    obtain ⟨e9, ep9⟩ := matchPriceGroup_sound h9
    refine ⟨w1, w2, w3, w4, r9, ⟨(matchClass1_sound h1).2.1, ed1⟩, ⟨en2, ew2⟩, eq3,
      ⟨en4, ew4⟩, ⟨en5, ?_⟩, ⟨en6, ew6⟩, ep7, ⟨en8, ew8⟩, ep9, by simpa using hend, ?_⟩
    · intro c hc
      have := et5 c hc
      simpa using this
    · subst e2; subst e3; subst e4; subst e5; subst e6; subst e7; subst e8; subst e9
      rw [e1]
      simp [List.append_assoc]
  · rw [if_neg hend] at h
    exact absurd h (by simp)

theorem itemLineMatch_complete {s : String}
    {a w1 q w2 p w3 u w4 e : List Char}
    (ha : digitStr a) (hw1 : wsStr w1) (hq : qtyStr q) (hw2 : wsStr w2)
    (hp : tokenStr p) (hw3 : wsStr w3) (hu : priceStr u) (hw4 : wsStr w4)
    (he : priceStr e)
    (hs : s.data = a ++ w1 ++ q ++ w2 ++ p ++ w3 ++ ['$'] ++ u ++ w4 ++ ['$'] ++ e) :
    itemLineMatch s = some ⟨a, q, p, u, e⟩ := by
  simp only [List.append_assoc, List.singleton_append, List.cons_append,
    List.nil_append] at hs
  simp only [itemLineMatch, hs]
  rw [matchClass1_append ha.1 ha.2
    (head_append_all hw1.1 (fun c hc => ws_not_digit (hw1.2 c hc)))]
  simp only []
  rw [matchClass1_append hw1.1 hw1.2 (qtyStr_head_append hq)]
  simp only []
  rw [matchQtyGroup_append hq
    (head_append_all hw2.1 (fun c hc => ⟨ws_not_digit (hw2.2 c hc), ws_ne_dot (hw2.2 c hc)⟩))]
  simp only []
  rw [matchClass1_append hw2.1 hw2.2 (head_append_all hp.1 hp.2)]
  simp only []
  rw [matchClass1_append hp.1 (fun c hc => by rw [hp.2 c hc]; rfl)
    (head_append_all hw3.1 (fun c hc => by rw [hw3.2 c hc]; rfl))]
  simp only []
  rw [matchClass1_append hw3.1 hw3.2 (head_cons_prop (show isWsChar '$' = false by decide))]
  simp only []
  rw [matchPriceGroup_append hu]
  simp only []
  rw [matchClass1_append hw4.1 hw4.2 (head_cons_prop (show isWsChar '$' = false by decide))]
  simp only []
  have st9 : matchPriceGroup ('$' :: e) = some (e, ([] : List Char)) := by
    have h0 := @matchPriceGroup_append e [] he
    rwa [List.append_nil] at h0
  rw [st9]
  simp

theorem intOfStr_digits {cs : List Char} (h : digitStr cs) :
    intOfStr cs = some ((digitsToNat cs : Int)) := by
  unfold intOfStr
  rw [if_pos]
  exact ⟨h.1, List.all_eq_true.mpr h.2⟩

theorem filter_ne_comma_eq {cs : List Char} (h : ∀ c ∈ cs, c ≠ ',') :
    cs.filter (fun c => c ≠ ',') = cs := by
  apply List.filter_eq_self.mpr
  intro a ha
  simp [h a ha]

theorem floatOfStr_all_digits {cs : List Char} (hne : cs ≠ [])
    (hdig : ∀ c ∈ cs, c.isDigit = true) :
    floatOfStr cs = some ((digitsToNat cs : Rat)) := by
  have hspan : spanP (fun c => decide (c ≠ '.')) (cs ++ []) = (cs, []) :=
    spanP_append _ cs []
      (fun a ha => decide_eq_true (digit_ne_dot (hdig a ha)))
      (by intro y hy; exact absurd hy (by simp))
  rw [List.append_nil] at hspan
  simp only [floatOfStr, hspan]
  simp [List.all_eq_true.mpr hdig, hne]

theorem floatOfStr_dot {d f : List Char} (hdig : ∀ c ∈ d, c.isDigit = true)
    (hf : ∀ c ∈ f, c.isDigit = true) (hne : d ≠ [] ∨ f ≠ []) :
    floatOfStr (d ++ '.' :: f) = some ((digitsToNat d : Rat) +
      (digitsToNat f : Rat) / (10 : Rat) ^ f.length) := by
  have hspan : spanP (fun c => decide (c ≠ '.')) (d ++ '.' :: f) = (d, '.' :: f) :=
    spanP_append _ d ('.' :: f)
      (fun a ha => decide_eq_true (digit_ne_dot (hdig a ha)))
      (head_cons_prop (by decide))
  simp only [floatOfStr, hspan]
  rcases hne with hne | hne
  · simp [List.all_eq_true.mpr hdig, List.all_eq_true.mpr hf, hne]
  · simp [List.all_eq_true.mpr hdig, List.all_eq_true.mpr hf, hne]

theorem floatOfStr_qty {q : List Char} (hq : qtyStr q) :
    ∃ v, floatOfStr (q.filter (fun c => c ≠ ',')) = some v := by
  rcases hq with ⟨hne, hdig⟩ | ⟨d, f, ⟨hdne, hddig⟩, ⟨hfne, hfdig⟩, hqe⟩
  · rw [filter_ne_comma_eq (fun c hc => digit_ne_comma (hdig c hc))]
    exact ⟨_, floatOfStr_all_digits hne hdig⟩
  · subst hqe
    rw [filter_ne_comma_eq]
    · exact ⟨_, floatOfStr_dot hddig hfdig (Or.inl hdne)⟩
    · intro c hc
      rcases List.mem_append.mp hc with h1 | h2
      · exact digit_ne_comma (hddig c h1)
      · rcases List.mem_cons.mp h2 with rfl | h3
        · decide
        · exact digit_ne_comma (hfdig c h3)

theorem floatOfStr_price {u : List Char} (hu : priceStr u) :
    ∃ v, floatOfStr (u.filter (fun c => c ≠ ',')) = some v := by
  obtain ⟨body, d1, d2, hbne, hbody, hd1, hd2, hue⟩ := hu
  subst hue
  rw [List.filter_append]
  have hfb : ('.' :: d1 :: d2 :: []).filter (fun c => c ≠ ',') = '.' :: d1 :: d2 :: [] := by
    apply filter_ne_comma_eq
    intro c hc
    rcases List.mem_cons.mp hc with rfl | hc
    · decide
    · rcases List.mem_cons.mp hc with rfl | hc
      · exact digit_ne_comma hd1
      · rcases List.mem_cons.mp hc with rfl | hc
        · exact digit_ne_comma hd2
        · exact absurd hc (by simp)
  rw [hfb]
  have hbdig : ∀ c ∈ body.filter (fun c => c ≠ ','), c.isDigit = true := by
    intro c hc
    have hm := List.mem_filter.mp hc
    exact bodyChar_not_comma_digit (hbody c hm.1) (by simpa using hm.2)
  exact ⟨_, floatOfStr_dot hbdig (by
    intro c hc
    rcases List.mem_cons.mp hc with rfl | hc
    · exact hd1
    · rcases List.mem_cons.mp hc with rfl | hc
      · exact hd2
      · exact absurd hc (by simp)) (Or.inr (by simp))⟩

theorem mkRecord_of_match {s : String} {m : ItemMatch} (h : itemLineMatch s = some m) :
    ∃ r, mkRecord m = some r ∧ r.lineNumber = (digitsToNat m.line_no : Int) ∧
      r.description = "" := by
  obtain ⟨w1, w2, w3, w4, r9, hln, _, hq, _, _, _, hu, _, he, _, _⟩ := itemLineMatch_sound h
  obtain ⟨vq, hvq⟩ := floatOfStr_qty hq
  obtain ⟨vu, hvu⟩ := floatOfStr_price hu
  obtain ⟨ve, hve⟩ := floatOfStr_price he
  refine ⟨⟨(digitsToNat m.line_no : Int), vq, String.mk m.part_id, "", vu, ve⟩, ?_, rfl, rfl⟩
  simp only [mkRecord, intOfStr_digits hln, hvq, hvu, hve]

/-- Projection that forgets the (mutable) description field. -/
def stripDesc (r : ItemRecord) : ItemRecord :=
  { r with description := "" }

theorem stripDesc_appendDesc (c : ItemRecord) (ln : String) :
    stripDesc (appendDesc c ln) = stripDesc c := rfl

theorem stripDesc_recompute_appendDesc (c : ItemRecord) (ln : String) :
    stripDesc (recompute (appendDesc c ln)) = stripDesc (recompute c) := rfl

theorem extractLoop_cont : ∀ (mids : List String) (finished : List ItemRecord)
    (c : ItemRecord) (rest : List String),
    (∀ l ∈ mids, itemLineMatch l = none) →
    extractLoop (mids ++ rest) finished (some c) =
      extractLoop rest finished (some (descAppendAll c mids))
  | [], finished, c, rest, _ => by simp [descAppendAll]
  | ln :: mids, finished, c, rest, hm => by
    have hln : itemLineMatch ln = none := hm ln (List.mem_cons_self ln mids)
    have htail : ∀ l ∈ mids, itemLineMatch l = none :=
      fun l hl => hm l (List.mem_cons_of_mem ln hl)
    have hfold : descAppendAll c (ln :: mids) = descAppendAll (contStep c ln) mids := by
      simp [descAppendAll]
    rw [List.cons_append, hfold]
    simp only [extractLoop, hln]
    by_cases hlead : startsWithLeadTime ln = true
    · rw [if_pos hlead, extractLoop_cont mids finished c rest htail]
      simp [contStep, hlead]
    · rw [if_neg hlead, extractLoop_cont mids finished (appendDesc c ln) rest htail]
      simp [contStep, hlead]

theorem extractLoop_skip : ∀ (pre rest : List String) (finished : List ItemRecord),
    (∀ l ∈ pre, itemLineMatch l = none) →
    extractLoop (pre ++ rest) finished none = extractLoop rest finished none
  | [], rest, finished, _ => by simp
  | ln :: pre, rest, finished, hm => by
    have hln : itemLineMatch ln = none := hm ln (List.mem_cons_self ln pre)
    rw [List.cons_append]
    simp only [extractLoop, hln]
    exact extractLoop_skip pre rest finished (fun l hl => hm l (List.mem_cons_of_mem ln hl))

theorem extractLoop_ok_map (g : ItemRecord → ItemRecord)
    (hg : ∀ c ln, g (appendDesc c ln) = g c) :
    ∀ (lines : List String) (finished : List ItemRecord) (cur : Option ItemRecord)
      (out : List ItemRecord), extractLoop lines finished cur = .ok out →
      out.map g = finished.map g ++ (cur.toList).map g ++
        lines.filterMap (fun l => ((itemLineMatch l).bind mkRecord).map g)
  | [], finished, cur, out, h => by
    simp only [extractLoop] at h
    obtain rfl := Except.ok.inj h
    simp
  | ln :: lines, finished, cur, out, h => by
    cases hm : itemLineMatch ln with
    | some m =>
      simp only [extractLoop, hm] at h
      cases hr : mkRecord m with
      | none => rw [hr] at h; exact absurd h (by simp)
      | some r =>
        rw [hr] at h
        simp only [] at h
        rw [extractLoop_ok_map g hg lines (finished ++ cur.toList) (some r) out h]
        simp [List.filterMap_cons, hm, hr, List.append_assoc]
    | none =>
      cases cur with
      | none =>
        simp only [extractLoop, hm] at h
        rw [extractLoop_ok_map g hg lines finished none out h]
        simp [List.filterMap_cons, hm]
      | some c =>
        simp only [extractLoop, hm] at h
        by_cases hlead : startsWithLeadTime ln = true
        · rw [if_pos hlead] at h
          rw [extractLoop_ok_map g hg lines finished (some c) out h]
          simp [List.filterMap_cons, hm]
        · rw [if_neg hlead] at h
          rw [extractLoop_ok_map g hg lines finished (some (appendDesc c ln)) out h]
          simp [List.filterMap_cons, hm, hg]

theorem extractLoop_isOk : ∀ (lines : List String) (finished : List ItemRecord)
    (cur : Option ItemRecord), ∃ out, extractLoop lines finished cur = .ok out
  | [], finished, cur => ⟨finished ++ cur.toList, rfl⟩
  | ln :: lines, finished, cur => by
    cases hm : itemLineMatch ln with
    | some m =>
      obtain ⟨r, hr, _, _⟩ := mkRecord_of_match hm
      simp only [extractLoop, hm, hr]
      exact extractLoop_isOk lines (finished ++ cur.toList) (some r)
    | none =>
      cases cur with
      | none =>
        simp only [extractLoop, hm]
        exact extractLoop_isOk lines finished none
      | some c =>
        simp only [extractLoop, hm]
        by_cases hlead : startsWithLeadTime ln = true
        · rw [if_pos hlead]
          exact extractLoop_isOk lines finished (some c)
        · rw [if_neg hlead]
          exact extractLoop_isOk lines finished (some (appendDesc c ln))

theorem filterMap_bind_length (g : ItemRecord → ItemRecord) :
    ∀ lines : List String,
      (lines.filterMap (fun l => ((itemLineMatch l).bind mkRecord).map g)).length =
        (lines.filter (fun l => (itemLineMatch l).isSome)).length
  | [] => rfl
  | ln :: lines => by
    have ih := filterMap_bind_length g lines
    cases hm : itemLineMatch ln with
    | none =>
      have hf : ((itemLineMatch ln).bind mkRecord).map g = none := by rw [hm]; rfl
      rw [List.filterMap_cons, List.filter_cons]
      simp only [hf]
      simpa [hm] using ih
    | some m =>
      obtain ⟨r, hr, _, _⟩ := mkRecord_of_match hm
      have hf : ((itemLineMatch ln).bind mkRecord).map g = some (g r) := by
        rw [hm]
        show (mkRecord m).map g = some (g r)
        rw [hr]
        rfl
      rw [List.filterMap_cons, List.filter_cons]
      simp only [hf]
      simpa [hm] using ih

/-- Continuation lines joined by a single space, in arrival order (the
spec's description-accumulation rule). -/
def spaceJoined : List String → String
  | [] => ""
  | [l] => l
  | l :: rest => l ++ " " ++ spaceJoined rest

/-- Each line preceded by one space, concatenated. -/
def spacePrefixed : List String → String
  | [] => ""
  | l :: rest => " " ++ l ++ spacePrefixed rest

theorem spaceJoined_cons : ∀ (l : String) (rest : List String),
    spaceJoined (l :: rest) = l ++ spacePrefixed rest
  | l, [] => by
    show l = l ++ ""
    simp
  | l, r :: rest => by
    show l ++ " " ++ spaceJoined (r :: rest) = l ++ spacePrefixed (r :: rest)
    rw [spaceJoined_cons r rest]
    show l ++ " " ++ (r ++ spacePrefixed rest) = l ++ (" " ++ r ++ spacePrefixed rest)
    simp [String.append_assoc]

theorem append_space_ne (a b : String) : a ++ " " ++ b ≠ "" := by
  intro h
  have hl := congrArg String.length h
  simp [String.length_append] at hl
  exact absurd hl.1.2 (by decide)

theorem descAppendAll_ne : ∀ (mids : List String) (c : ItemRecord),
    (∀ l ∈ mids, startsWithLeadTime l = false) → c.description ≠ "" →
    (descAppendAll c mids).description = c.description ++ spacePrefixed mids
  | [], c, _, _ => by
    show c.description = c.description ++ ""
    simp
  | l :: mids, c, hm, hd => by
    have hl : startsWithLeadTime l = false := hm l (List.mem_cons_self l mids)
    have hstep : descAppendAll c (l :: mids) = descAppendAll (appendDesc c l) mids := by
      simp [descAppendAll, contStep, hl]
    rw [hstep]
    have hd2 : (appendDesc c l).description = c.description ++ " " ++ l := by
      simp [appendDesc, hd]
    rw [descAppendAll_ne mids (appendDesc c l)
      (fun x hx => hm x (List.mem_cons_of_mem l hx))
      (by rw [hd2]; exact append_space_ne _ _)]
    rw [hd2]
    show c.description ++ " " ++ l ++ spacePrefixed mids =
      c.description ++ (" " ++ l ++ spacePrefixed mids)
    simp [String.append_assoc]

theorem descAppendAll_empty (mids : List String)
    (hm : ∀ l ∈ mids, startsWithLeadTime l = false ∧ l ≠ "") (c : ItemRecord)
    (hd : c.description = "") :
    (descAppendAll c mids).description = spaceJoined mids := by
  cases mids with
  | nil => simpa [descAppendAll, spaceJoined] using hd
  | cons l mids =>
    have hl := hm l (List.mem_cons_self l mids)
    have hstep : descAppendAll c (l :: mids) = descAppendAll (appendDesc c l) mids := by
      simp [descAppendAll, contStep, hl.1]
    rw [hstep]
    have hd2 : (appendDesc c l).description = l := by simp [appendDesc, hd]
    rw [descAppendAll_ne mids (appendDesc c l)
      (fun x hx => (hm x (List.mem_cons_of_mem l hx)).1)
      (by rw [hd2]; exact hl.2)]
    rw [hd2, spaceJoined_cons]

/-- C1: the claim states that when no line matches the item-row pattern
(including the empty sequence) `extract_pdf_invoice` returns an empty
result and raises no error.  In the code, the scan loop does yield the
empty record list, but `pd.DataFrame([])` has no columns, so the final
column selection `df[[...]]` (source lines 65-72) raises a `KeyError`:
for every zero-match input the function errors instead of returning an
empty sequence.  This theorem evaluates the model on such inputs. -/
theorem C1_zero_matches_raises :
    (∀ lines : List String, (∀ l ∈ lines, itemLineMatch l = none) →
      extract_pdf_invoice lines = .error keyErrorMsg) ∧
    extract_pdf_invoice [] = .error keyErrorMsg ∧
    extractLoop ["random header text"] [] none = .ok [] := by
  refine ⟨?_, by decide, by decide⟩
  intro lines hm
  unfold extract_pdf_invoice
  have hloop : extractLoop lines [] none = .ok [] := by
    have h0 := extractLoop_skip lines [] [] hm
    simpa using h0
  rw [hloop]
  rfl

theorem C1_witness :
    extract_pdf_invoice ["no item rows here"] = .error keyErrorMsg :=
  C1_zero_matches_raises.1 ["no item rows here"] (by decide)

/-- C2: every record in a successfully returned sequence has
`netExtendedPrice = round2 (quantityOrdered * netUnitPrice)`; the value
parsed from the line's own extended-price field is always overwritten by
the recomputation at source lines 60-63. -/
theorem C2_extended_price_recomputed :
    ∀ (lines : List String) (recs : List ItemRecord),
      extract_pdf_invoice lines = .ok recs →
      ∀ r ∈ recs, r.netExtendedPrice = round2 (r.quantityOrdered * r.netUnitPrice) := by
  intro lines recs h r hr
  unfold extract_pdf_invoice at h
  cases hload : extractLoop lines [] none with
  | error e => rw [hload] at h; exact absurd h (by simp)
  | ok recs0 =>
    rw [hload] at h
    simp only [] at h
    by_cases hne : recs0 = []
    · rw [if_pos hne] at h
      exact absurd h (by simp)
    · rw [if_neg hne] at h
      obtain rfl := Except.ok.inj h
      obtain ⟨r0, _, rfl⟩ := List.mem_map.mp hr
      simp [recompute]

theorem C2_witness :
    (⟨1, 3, "PN-300", "", 5/2, 15/2⟩ : ItemRecord).netExtendedPrice =
      round2 ((⟨1, 3, "PN-300", "", 5/2, 15/2⟩ : ItemRecord).quantityOrdered *
        (⟨1, 3, "PN-300", "", 5/2, 15/2⟩ : ItemRecord).netUnitPrice) :=
  C2_extended_price_recomputed ["random header text", "1 3 PN-300 $2.50 $999.99"]
    [⟨1, 3, "PN-300", "", 5/2, 15/2⟩] (by decide) _ (by decide)

/-- C5: a continuation line that starts (case-insensitively) with
"LEAD TIME" is dropped: the loop state is unchanged, so it affects no
record's description.  And the step taken for a line that matches the
item-row pattern is fully determined without consulting the "LEAD TIME"
test: the match branch (source lines 44-54) fires before the check at
line 56, whatever the line's text. -/
theorem C5_lead_time_exclusion :
    (∀ (ln : String) (rest : List String) (finished : List ItemRecord) (c : ItemRecord),
      itemLineMatch ln = none → startsWithLeadTime ln = true →
      extractLoop (ln :: rest) finished (some c) = extractLoop rest finished (some c)) ∧
    (∀ (ln : String) (m : ItemMatch) (r : ItemRecord) (rest : List String)
      (finished : List ItemRecord) (cur : Option ItemRecord),
      itemLineMatch ln = some m → mkRecord m = some r →
      extractLoop (ln :: rest) finished cur =
        extractLoop rest (finished ++ cur.toList) (some r)) := by
  constructor
  · intro ln rest finished c hm hlead
    simp only [extractLoop, hm, hlead, if_true]
  · intro ln m r rest finished cur hm hr
    simp only [extractLoop, hm, hr]

theorem C5_witness :
    extractLoop ["LEAD TIME 5 DAYS"] [] (some ⟨1, 2, "PN-100", "", 10, 20⟩) =
      extractLoop [] [] (some ⟨1, 2, "PN-100", "", 10, 20⟩) ∧
    extractLoop ["2 1 PN-200 $5.00 $5.00"] []
        (some (⟨1, 2, "PN-100", "", 10, 20⟩ : ItemRecord)) =
      extractLoop [] ([] ++ (some (⟨1, 2, "PN-100", "", 10, 20⟩ : ItemRecord)).toList)
        (some ⟨2, 1, "PN-200", "", 5, 5⟩) :=
  ⟨C5_lead_time_exclusion.1 "LEAD TIME 5 DAYS" [] [] ⟨1, 2, "PN-100", "", 10, 20⟩
      (by decide) (by decide),
    C5_lead_time_exclusion.2 "2 1 PN-200 $5.00 $5.00"
      ⟨"2".data, "1".data, "PN-200".data, "5.00".data, "5.00".data⟩
      ⟨2, 1, "PN-200", "", 5, 5⟩ [] [] (some ⟨1, 2, "PN-100", "", 10, 20⟩)
      (by decide) (by decide)⟩

/-- C6: consecutive continuation lines accumulate in the record's
description in arrival order, joined by a single space, with no further
trimming; in particular Scenario E yields the description
"Line one Line two". -/
theorem C6_description_accumulation :
    (∀ mids : List String, (∀ l ∈ mids, startsWithLeadTime l = false ∧ l ≠ "") →
      ∀ c : ItemRecord, c.description = "" →
      (descAppendAll c mids).description = spaceJoined mids) ∧
    extract_pdf_invoice ["1 1 PN-1 $1.00 $1.00", "Line one", "Line two"] =
      .ok [⟨1, 1, "PN-1", "Line one Line two", 1, 1⟩] :=
  ⟨descAppendAll_empty, by decide⟩

theorem C6_witness :
    (descAppendAll ⟨1, 1, "PN-1", "", 1, 1⟩ ["Line one", "Line two"]).description =
      spaceJoined ["Line one", "Line two"] :=
  C6_description_accumulation.1 ["Line one", "Line two"] (by decide)
    ⟨1, 1, "PN-1", "", 1, 1⟩ rfl

/-- C9: for every line matched by `ITEM_LINE_RE`, all four numeric
conversions at source lines 45-52 succeed, so the `ValueError` branch of
the scan loop is unreachable: on every input the loop returns a result,
never an error. -/
theorem C9_numeric_conversions_succeed :
    (∀ (l : String) (m : ItemMatch), itemLineMatch l = some m → (mkRecord m).isSome) ∧
    (∀ lines : List String, ∃ out, extractLoop lines [] none = .ok out) := by
  constructor
  · intro l m hm
    obtain ⟨r, hr, _, _⟩ := mkRecord_of_match hm
    rw [hr]
    rfl
  · intro lines
    exact extractLoop_isOk lines [] none

theorem C9_witness :
    (mkRecord ⟨"1".data, "2".data, "PN-100".data, "10.00".data, "20.00".data⟩).isSome ∧
    ∃ out, extractLoop ["not an item row"] [] none = .ok out :=
  ⟨C9_numeric_conversions_succeed.1 "1 2 PN-100 $10.00 $20.00"
      ⟨"1".data, "2".data, "PN-100".data, "10.00".data, "20.00".data⟩ (by decide),
    C9_numeric_conversions_succeed.2 ["not an item row"]⟩

/-- C10: a line whose price fields contain commas in non-thousands
positions — here with no digits at all before the decimal point — is
accepted by `ITEM_LINE_RE` (its price body class is `[\d,]+`), the
commas are stripped before `float`, and the resulting price is the
remaining digits: 0.50 for the field ",.50". -/
theorem C10_comma_leniency :
    itemLineMatch "1 1 P $,.50 $,.50" =
      some ⟨"1".data, "1".data, "P".data, ",.50".data, ",.50".data⟩ ∧
    extract_pdf_invoice ["1 1 P $,.50 $,.50"] =
      .ok [⟨1, 1, "P", "", 1/2, 1/2⟩] :=
  ⟨by decide, by decide⟩

theorem getLast?_append_singleton : ∀ (xs : List Char) (c : Char),
    (xs ++ [c]).getLast? = some c
  | [], _ => rfl
  | x :: xs, c => by
    rw [List.cons_append]
    cases hxs : xs ++ [c] with
    | nil => exact absurd hxs (by simp)
    | cons y ys =>
      rw [List.getLast?_cons_cons, ← hxs]
      exact getLast?_append_singleton xs c

/-- C3: for a line that does not end in a newline (every line handed to
the loop is stripped at source line 38), a new record is created from it
(the match at line 43 and the conversions at lines 45-52 succeed) if and
only if the entire line satisfies the spec's five-field positional
grammar `specItemRow`. -/
theorem C3_row_grammar_iff :
    ∀ s : String, s.data.getLast? ≠ some '\n' →
      (((itemLineMatch s).bind mkRecord).isSome ↔ specItemRow s) := by
  intro s hnl
  constructor
  · intro hsome
    cases hm : itemLineMatch s with
    | none => rw [hm] at hsome; exact absurd hsome (by simp)
    | some m =>
      obtain ⟨w1, w2, w3, w4, r9, hln, hw1, hq, hw2, hp, hw3, hu, hw4, he, hr9, heq⟩ :=
        itemLineMatch_sound hm
      rcases hr9 with rfl | rfl
      · exact ⟨m.line_no, w1, m.qty, w2, m.part_id, w3, m.unit_price, w4, m.ext_price,
          hln, hw1, hq, hw2, hp, hw3, hu, hw4, he, by simpa using heq⟩
      · exfalso
        apply hnl
        rw [heq]
        exact getLast?_append_singleton _ '\n'
  · intro hspec
    obtain ⟨a, w1, q, w2, p, w3, u, w4, e, ha, hw1, hq, hw2, hp, hw3, hu, hw4, he, heq⟩ :=
      hspec
    have hm := itemLineMatch_complete ha hw1 hq hw2 hp hw3 hu hw4 he heq
    obtain ⟨r, hr, _, _⟩ := mkRecord_of_match hm
    rw [hm]
    show (mkRecord ⟨a, q, p, u, e⟩).isSome
    rw [hr]
    rfl

theorem C3_witness :
    ((itemLineMatch "1 2 PN-100 $10.00 $20.00").bind mkRecord).isSome ↔
      specItemRow "1 2 PN-100 $10.00 $20.00" :=
  C3_row_grammar_iff "1 2 PN-100 $10.00 $20.00" (by decide)

/-- C4: a run of non-matching lines before the first item row leaves the
result unchanged (those lines are discarded), and a run of non-matching
lines between two item rows is folded only into the earlier record's
description (`descAppendAll rec1 mids`) while the later record keeps the
empty description it was created with. -/
theorem C4_continuation_attachment :
    (∀ pre rest : List String, (∀ l ∈ pre, itemLineMatch l = none) →
      extract_pdf_invoice (pre ++ rest) = extract_pdf_invoice rest) ∧
    (∀ (r1 r2 : String) (m1 m2 : ItemMatch) (rec1 rec2 : ItemRecord) (mids : List String),
      itemLineMatch r1 = some m1 → mkRecord m1 = some rec1 →
      itemLineMatch r2 = some m2 → mkRecord m2 = some rec2 →
      (∀ l ∈ mids, itemLineMatch l = none) →
      extract_pdf_invoice (r1 :: (mids ++ [r2])) =
        .ok [recompute (descAppendAll rec1 mids), recompute rec2]) := by
  constructor
  · intro pre rest hm
    unfold extract_pdf_invoice
    rw [extractLoop_skip pre rest [] hm]
  · intro r1 r2 m1 m2 rec1 rec2 mids h1 hr1 h2 hr2 hm
    unfold extract_pdf_invoice
    have hloop : extractLoop (r1 :: (mids ++ [r2])) [] none =
        .ok [descAppendAll rec1 mids, rec2] := by
      simp only [extractLoop, h1, hr1, Option.toList, List.append_nil, List.nil_append]
      rw [extractLoop_cont mids [] rec1 [r2] hm]
      simp only [extractLoop, h2, hr2, Option.toList, List.append_nil, List.nil_append]
      rfl
    rw [hloop]
    rfl

theorem C4_witness :
    extract_pdf_invoice (["header text"] ++ ["1 2 PN-100 $10.00 $20.00"]) =
      extract_pdf_invoice ["1 2 PN-100 $10.00 $20.00"] ∧
    extract_pdf_invoice ["1 2 PN-100 $10.00 $20.00", "Widget, blue", "2 1 PN-200 $5.00 $5.00"] =
      .ok [recompute (descAppendAll ⟨1, 2, "PN-100", "", 10, 20⟩ ["Widget, blue"]),
        recompute ⟨2, 1, "PN-200", "", 5, 5⟩] :=
  ⟨C4_continuation_attachment.1 ["header text"] ["1 2 PN-100 $10.00 $20.00"] (by decide),
    C4_continuation_attachment.2 "1 2 PN-100 $10.00 $20.00" "2 1 PN-200 $5.00 $5.00"
      ⟨"1".data, "2".data, "PN-100".data, "10.00".data, "20.00".data⟩
      ⟨"2".data, "1".data, "PN-200".data, "5.00".data, "5.00".data⟩
      ⟨1, 2, "PN-100", "", 10, 20⟩ ⟨2, 1, "PN-200", "", 5, 5⟩ ["Widget, blue"]
      (by decide) (by decide) (by decide) (by decide) (by decide)⟩

/-- C7: on success the result has exactly one record per matching line
(the lengths agree), and, up to the description field that continuation
lines later extend, the records are exactly the per-line records of the
matching lines in input order. -/
theorem C7_one_record_per_match_in_order :
    ∀ (lines : List String) (recs : List ItemRecord),
      extract_pdf_invoice lines = .ok recs →
      recs.map stripDesc = lines.filterMap
        (fun l => ((itemLineMatch l).bind mkRecord).map (fun r => stripDesc (recompute r))) ∧
      recs.length = (lines.filter (fun l => (itemLineMatch l).isSome)).length := by
  intro lines recs h
  unfold extract_pdf_invoice at h
  cases hload : extractLoop lines [] none with
  | error e => rw [hload] at h; exact absurd h (by simp)
  | ok recs0 =>
    rw [hload] at h
    simp only [] at h
    by_cases hne : recs0 = []
    · rw [if_pos hne] at h
      exact absurd h (by simp)
    · rw [if_neg hne] at h
      obtain rfl := Except.ok.inj h
      have hmap := extractLoop_ok_map (fun r => stripDesc (recompute r))
        (fun c ln => stripDesc_recompute_appendDesc c ln) lines [] none recs0 hload
      constructor
      · rw [List.map_map]
        simpa using hmap
      · rw [List.length_map]
        have e1 : recs0.length =
            (recs0.map (fun r => stripDesc (recompute r))).length := by
          rw [List.length_map]
        rw [e1, hmap]
        simpa using filterMap_bind_length (fun r => stripDesc (recompute r)) lines

theorem C7_witness :
    ([⟨1, 2, "PN-100", "", 10, 20⟩] : List ItemRecord).map stripDesc =
      ["header text", "1 2 PN-100 $10.00 $20.00"].filterMap
        (fun l => ((itemLineMatch l).bind mkRecord).map (fun r => stripDesc (recompute r))) ∧
    ([⟨1, 2, "PN-100", "", 10, 20⟩] : List ItemRecord).length =
      (["header text", "1 2 PN-100 $10.00 $20.00"].filter
        (fun l => (itemLineMatch l).isSome)).length :=
  C7_one_record_per_match_in_order ["header text", "1 2 PN-100 $10.00 $20.00"]
    [⟨1, 2, "PN-100", "", 10, 20⟩] (by decide)

/-- C8 counterexample: the regex's leading field `\d+` also accepts "0",
so the line "0 2 PN-100 $10.00 $20.00" produces a record whose
lineNumber is 0 — not a positive integer, refuting the claim as
stated. -/
theorem C8_counterexample :
    extract_pdf_invoice ["0 2 PN-100 $10.00 $20.00"] =
      .ok [⟨0, 2, "PN-100", "", 10, 20⟩] ∧
    ¬((0 : Int) < (⟨0, 2, "PN-100", "", 10, 20⟩ : ItemRecord).lineNumber) :=
  ⟨by decide, by decide⟩

/-- C8 (amended): every returned record's lineNumber is a non-negative
integer equal to the integer value of the leading digit field of the
matching line it was created from (preserved, not re-derived). -/
theorem C8_lineNumber_verbatim :
    ∀ (lines : List String) (recs : List ItemRecord) (r : ItemRecord),
      extract_pdf_invoice lines = .ok recs → r ∈ recs →
      0 ≤ r.lineNumber ∧ ∃ l ∈ lines, ∃ m, itemLineMatch l = some m ∧
        r.lineNumber = (digitsToNat m.line_no : Int) := by
  intro lines recs r h hr
  unfold extract_pdf_invoice at h
  cases hload : extractLoop lines [] none with
  | error e => rw [hload] at h; exact absurd h (by simp)
  | ok recs0 =>
    rw [hload] at h
    simp only [] at h
    by_cases hne : recs0 = []
    · rw [if_pos hne] at h
      exact absurd h (by simp)
    · rw [if_neg hne] at h
      obtain rfl := Except.ok.inj h
      obtain ⟨r0, hr0, rfl⟩ := List.mem_map.mp hr
      have hmap := extractLoop_ok_map stripDesc
        (fun c ln => stripDesc_appendDesc c ln) lines [] none recs0 hload
      have hmem : stripDesc r0 ∈ recs0.map stripDesc := List.mem_map_of_mem stripDesc hr0
      rw [hmap] at hmem
      simp only [List.map_nil, List.nil_append] at hmem
      obtain ⟨l, hl, hfl⟩ := List.mem_filterMap.mp hmem
      cases hm : itemLineMatch l with
      | none =>
        rw [hm] at hfl
        exact absurd hfl (by simp)
      | some m =>
        rw [hm] at hfl
        obtain ⟨rm, hrm, hlno, _⟩ := mkRecord_of_match hm
        have hfl2 : (mkRecord m).map stripDesc = some (stripDesc r0) := hfl
        rw [hrm] at hfl2
        have hsd : stripDesc rm = stripDesc r0 := by
          simpa using hfl2
        have hln_eq : r0.lineNumber = rm.lineNumber := by
          have h2 := congrArg ItemRecord.lineNumber hsd
          simpa [stripDesc] using h2.symm
        have hrec : (recompute r0).lineNumber = r0.lineNumber := rfl
        refine ⟨?_, l, hl, m, hm, ?_⟩
        · rw [hrec, hln_eq, hlno]
          exact Int.natCast_nonneg _
        · rw [hrec, hln_eq, hlno]

theorem C8_witness :
    0 ≤ (⟨7, 2, "PN-100", "", 10, 20⟩ : ItemRecord).lineNumber ∧
    ∃ l ∈ (["007 2 PN-100 $10.00 $20.00"] : List String), ∃ m, itemLineMatch l = some m ∧
      (⟨7, 2, "PN-100", "", 10, 20⟩ : ItemRecord).lineNumber = (digitsToNat m.line_no : Int) :=
  C8_lineNumber_verbatim ["007 2 PN-100 $10.00 $20.00"] [⟨7, 2, "PN-100", "", 10, 20⟩]
    ⟨7, 2, "PN-100", "", 10, 20⟩ (by decide) (by decide)
